import Mathlib

/-!
Verification of the HTML-to-text normalizer of `src/data/etl.py`
(`clean_html_content`, `_extract_structured_text`, `_clean_whitespace`).

Text is modelled as `List Char`.  The parsed HTML document is modelled as a
tree (`Node`), mirroring the BeautifulSoup parse tree on which the Python
code operates; the permissive parse step itself (BeautifulSoup's
`html.parser` backend, a library whose code is not part of this repository)
is modelled from the spec as a tolerant tokenizer/tree-builder
(`tokenizeF`/`buildAux`/`parseHtml`).

Python's `str.strip` and the regex classes are modelled over the ASCII
whitespace characters (space, tab, newline, carriage return, vertical tab,
form feed), which is faithful for all inputs considered here.
-/

/-- The whitespace class of Python's `str.strip()` / `\s` (ASCII part). -/
def isSpc (c : Char) : Bool :=
  c = ' ' || c = '\t' || c = '\n' || c = '\r' || c = '\x0b' || c = '\x0c'

/-- The first character (if any) is not whitespace. -/
def headOk : List Char → Bool
  | [] => true
  | c :: _ => !isSpc c

/-- The last character (if any) is not whitespace. -/
def lastOk : List Char → Bool
  | [] => true
  | [c] => !isSpc c
  | _ :: c :: r => lastOk (c :: r)

/-- Drop trailing whitespace (Python `str.rstrip`, ASCII). -/
def dropTrailing : List Char → List Char
  | [] => []
  | c :: r =>
    match dropTrailing r with
    | [] => if isSpc c then [] else [c]
    | t => c :: t

/-- Python `str.strip()` on ASCII whitespace. -/
def pyStrip (l : List Char) : List Char :=
  dropTrailing (l.dropWhile isSpc)

/-- `true` when the list does not begin with a space character. -/
def okAfterSpace : List Char → Bool
  | [] => true
  | c :: _ => !(c = ' ')

/-- No two consecutive ASCII space characters (the `' +'` regex is idle). -/
def noDS : List Char → Bool
  | [] => true
  | c :: r => (if c = ' ' then okAfterSpace r else true) && noDS r

/-- `true` when the list does not begin with a newline. -/
def okAfterNl : List Char → Bool
  | [] => true
  | c :: _ => !(c = '\n')

/-- No two consecutive newline characters (no blank line survives). -/
def noNlNl : List Char → Bool
  | [] => true
  | c :: r => (if c = '\n' then okAfterNl r else true) && noNlNl r

/-- Every newline is followed by a non-whitespace character (or is last). -/
def goodNl : List Char → Bool
  | [] => true
  | c :: r => (if c = '\n' then headOk r else true) && goodNl r

/-- Replace each run of two or more `' '` by a single `' '`
(Python `re.sub(r' +', ' ', text)`; only ASCII spaces, not tabs). -/
def collapseSpaces : List Char → List Char
  | [] => []
  | [c] => [c]
  | c :: d :: r =>
    if c = ' ' ∧ d = ' ' then collapseSpaces (d :: r)
    else c :: collapseSpaces (d :: r)

/-- Number of newline characters. -/
def countNl (l : List Char) : Nat := l.count '\n'

/-- Longest prefix ending at the last newline of `l` (meaningful when
`'\n' ∈ l`); this is the extent of a match of `\n\s*\n\s*\n+`. -/
def upToLastNl (l : List Char) : List Char :=
  (l.reverse.dropWhile (fun c => !(c = '\n'))).reverse

/-- Python `re.sub(r'\n\s*\n\s*\n+', '\n\n', text)`: a leftmost match starts
at a newline whose maximal whitespace run contains at least three newlines
and extends to the last newline of that run; it is replaced by two
newlines and scanning resumes after the match.  Fuel-indexed so that the
recursion is structural; every step consumes at least one character, so
`length` fuel always suffices. -/
def collapseBlankF : Nat → List Char → List Char
  | _, [] => []
  | 0, l => l
  | f + 1, c :: r =>
    if c = '\n' ∧ 3 ≤ countNl ((c :: r).takeWhile isSpc) then
      '\n' :: '\n' :: collapseBlankF f (r.drop ((upToLastNl ((c :: r).takeWhile isSpc)).length - 1))
    else
      c :: collapseBlankF f r

/-- The blank-line collapsing pass. -/
def collapseBlank (l : List Char) : List Char := collapseBlankF l.length l

/-- Python `text.split('\n')`. -/
def splitNl : List Char → List (List Char)
  | [] => [[]]
  | c :: r =>
    if c = '\n' then [] :: splitNl r
    else
      match splitNl r with
      | [] => [[c]]
      | m :: ms => (c :: m) :: ms

/-- Python `'\n'.join(...)`. -/
def joinNl : List (List Char) → List Char
  | [] => []
  | [l] => l
  | l :: ls => l ++ '\n' :: joinNl ls

/-- `_clean_whitespace` of `src/data/etl.py`: collapse space runs, collapse
3+-newline blank stretches to one blank line, strip every line, drop empty
lines, rejoin, and strip the result. -/
def cleanWhitespace (t : List Char) : List Char :=
  let t1 := collapseSpaces t
  let t2 := collapseBlank t1
  let lines := (splitNl t2).map pyStrip
  let kept := lines.filter (fun l => !l.isEmpty)
  pyStrip (joinNl kept)

/-! ## The parse tree model (BeautifulSoup tag tree) -/

/-- A node of the parsed document: an element with tag name, attributes and
children, or a navigable string. -/
inductive Node where
  | text : List Char → Node
  | elem : String → List (String × List Char) → List Node → Node

def sScript : String := "script"
def sStyle : String := "style"
def sImg : String := "img"
def sAnchor : String := "a"
def sHref : String := "href"
def sLi : String := "li"
def sH : String := "h"
def sDocumentTag : String := "[document]"

/-- The two tag names decomposed first by `clean_html_content`. -/
def scriptStyleTags : List String := [sScript, sStyle]

/-- The tag removed by the image pass. -/
def imgTags : List String := [sImg]

def sP : String := "p"
def sH1 : String := "h1"
def sH2 : String := "h2"
def sH3 : String := "h3"
def sH4 : String := "h4"
def sH5 : String := "h5"
def sH6 : String := "h6"
def sDiv : String := "div"
def sSpan : String := "span"

/-- The block-level tags walked by `_extract_structured_text`
(`soup.find_all(['p','h1','h2','h3','h4','h5','h6','li','div','span'])`). -/
def blockTags : List String :=
  [sP, sH1, sH2, sH3, sH4, sH5, sH6, sLi, sDiv, sSpan]

mutual

/-- `get_text()` of one node: concatenation of all descendant strings. -/
def getTextN : Node → List Char
  | .text s => s
  | .elem _ _ cs => getTextL cs

/-- `get_text()` over a list of siblings, in document order. -/
def getTextL : List Node → List Char
  | [] => []
  | n :: ns => getTextN n ++ getTextL ns

end

mutual

/-- Contribution of one sibling to the decompose pass: a matching element
disappears entirely (with all its content); any other node is kept, its
children cleaned recursively. -/
def removeTagsOne (tags : List String) : Node → List Node
  | .text s => [.text s]
  | .elem t a cs =>
    if t ∈ tags then [] else [.elem t a (removeTagsL tags cs)]

/-- `for t in soup(tags): t.decompose()` over a sibling list. -/
def removeTagsL (tags : List String) : List Node → List Node
  | [] => []
  | n :: ns => removeTagsOne tags n ++ removeTagsL tags ns

end

/-- The decompose pass seen from the soup object: the root node itself is
never decomposed, matching descendants are removed with their subtrees. -/
def removeTagsN (tags : List String) : Node → Node
  | .text s => .text s
  | .elem t a cs => .elem t a (removeTagsL tags cs)

/-- First value bound to an attribute name (the parser keeps the first
occurrence, like Python's dict construction keeps one value per key). -/
def lookupAttr (k : String) : List (String × List Char) → Option (List Char)
  | [] => none
  | (k', v) :: rest => if k' = k then some v else lookupAttr k rest

mutual

/-- The link pass of `clean_html_content`: every `<a>` with an `href`
attribute whose stripped visible text and href value are both non-empty is
replaced by the single string `"{text} ({href})"`; any other node is kept
(descendants still processed). -/
def handleLinksN : Node → Node
  | .text s => .text s
  | .elem t a cs =>
    if t = sAnchor then
      match lookupAttr sHref a with
      | some u =>
        let txt := pyStrip (getTextL cs)
        if txt ≠ [] ∧ u ≠ [] then
          .text (txt ++ ' ' :: '(' :: (u ++ [')']))
        else .elem t a (handleLinksL cs)
      | none => .elem t a (handleLinksL cs)
    else .elem t a (handleLinksL cs)

def handleLinksL : List Node → List Node
  | [] => []
  | n :: ns => handleLinksN n :: handleLinksL ns

end

mutual

/-- `find_all(tags)` matches contributed by one node: the node itself when
its tag matches, then its descendants (pre-order document order). -/
def findAllOne (tags : List String) : Node → List Node
  | .text _ => []
  | .elem t a cs =>
    (if t ∈ tags then [Node.elem t a cs] else []) ++ findAllL tags cs

/-- `find_all(tags)` below a list of siblings, in document order. -/
def findAllL (tags : List String) : List Node → List Node
  | [] => []
  | n :: ns => findAllOne tags n ++ findAllL tags ns

end

/-- `soup.find_all(tags)`: the soup object itself is never returned, only
its descendants are searched. -/
def soupFindAll (tags : List String) : Node → List Node
  | .text _ => []
  | .elem _ _ cs => findAllL tags cs

mutual

/-- No element tagged with a member of `tags` occurs in this subtree
(the node itself included). -/
def noTagsN (tags : List String) : Node → Bool
  | .text _ => true
  | .elem t _ cs => decide (t ∉ tags) && noTagsL tags cs

def noTagsL (tags : List String) : List Node → Bool
  | [] => true
  | n :: ns => noTagsN tags n && noTagsL tags ns

end

/-- No element tagged `t` occurs strictly below this node. -/
def noTagBelow (t : String) : Node → Bool
  | .text _ => true
  | .elem _ _ cs => noTagsL [t] cs

/-- The tag of a node (text nodes have none). -/
def nodeTag : Node → String
  | .text _ => ""
  | .elem t _ _ => t

/-- The mojibake bullet literal of `src/data/etl.py` line 100
(`f"â€¢ {text}"`): the file's bytes are the UTF-8 double encoding of `•`. -/
def bulletChars : List Char := ['â', '€', '¢', ' ']

/-- Python `name.startswith('h')` for a one-character prefix: the first
character is `'h'`. -/
def startsWithH (t : String) : Bool :=
  match t.data with
  | [] => false
  | c :: _ => c = 'h'

/-- One step of the structured walk (`_extract_structured_text` loop body):
skip when the stripped text is empty or occurs among the stripped versions
of the segments emitted so far; otherwise append the segment, bulleted for
`li`, framed in newlines for tags starting with `h`. -/
def extractStep (acc : List (List Char)) (e : Node) : List (List Char) :=
  let txt := pyStrip (getTextN e)
  if txt ≠ [] ∧ txt ∉ acc.map pyStrip then
    if nodeTag e = sLi then acc ++ [bulletChars ++ txt]
    else if startsWithH (nodeTag e) then acc ++ ['\n' :: (txt ++ ['\n'])]
    else acc ++ [txt]
  else acc

/-- `_extract_structured_text`: walk the block-level elements in document
order, collect deduplicated segments, join with newlines; fall back to the
flat text of the whole document when no segment was produced. -/
def extractStructuredText (root : Node) : List Char :=
  let st := (soupFindAll blockTags root).foldl extractStep []
  if st.isEmpty then getTextN root else joinNl st

/-- The three in-place tree passes of `clean_html_content`, in source
order: drop script/style subtrees, drop images, rewrite anchors. -/
def cleanTree (root : Node) : Node :=
  handleLinksN (removeTagsN imgTags (removeTagsN scriptStyleTags root))

/-- `clean_html_content` from the parse tree onward. -/
def normalizeDoc (root : Node) : List Char :=
  cleanWhitespace (extractStructuredText (cleanTree root))

/-! ## Permissive parser

Modelled from the spec: `clean_html_content` parses with BeautifulSoup's
tolerant `html.parser` backend, library code that is not part of this
repository.  Per spec §4.1 step 2 the parse is permissive: malformed markup
never raises, unmatched or unparseable fragments degrade to plain text.
The model below mirrors the tolerant behaviour of that parser: lowercased
tag names, quoted/unquoted/valueless attributes, void elements closed
immediately, raw-text script/style content, named character references
decoded in text, stray `<`, unterminated tags and unmatched close tags
degraded to data or ignored. -/

/-- Tokens produced by the tolerant tokenizer. -/
inductive Tok where
  | openTag : String → List (String × List Char) → Tok
  | closeTag : String → Tok
  | textTok : List Char → Tok

def sArea : String := "area"
def sBase : String := "base"
def sBr : String := "br"
def sCol : String := "col"
def sEmbed : String := "embed"
def sHr : String := "hr"
def sInput : String := "input"
def sLink : String := "link"
def sMeta : String := "meta"
def sParam : String := "param"
def sSource : String := "source"
def sTrack : String := "track"
def sWbr : String := "wbr"

/-- HTML void elements: their start tag is closed immediately. -/
def voidTags : List String :=
  [sArea, sBase, sBr, sCol, sEmbed, sHr, sImg, sInput, sLink, sMeta, sParam,
   sSource, sTrack, sWbr]

/-- Tags whose content is raw text (CDATA mode of the parser). -/
def rawTextTags : List String := scriptStyleTags

/-- Characters that do not interrupt plain text. -/
def notSpecial (c : Char) : Bool := !(c = '<' || c = '&')

/-- Characters allowed inside a (tolerant) tag name after the first. -/
def isTagChar (c : Char) : Bool := !(isSpc c || c = '/' || c = '>')

/-- Characters allowed in an attribute name. -/
def isAttrNameChar (c : Char) : Bool := !(isSpc c || c = '/' || c = '>' || c = '=')

/-- Lowercase a character list into a tag/attribute name. -/
def lowerStr (l : List Char) : String := String.mk (l.map Char.toLower)

/-- Skip up to and including the first `'>'`; `none` when absent. -/
def breakAtGt : List Char → Option (List Char)
  | [] => none
  | c :: r => if c = '>' then some r else breakAtGt r

/-- Case-insensitive match of (lowercase) `pat` at the head of `s`. -/
def matchesAt (pat : List Char) (s : List Char) : Bool :=
  match pat, s with
  | [], _ => true
  | _ :: _, [] => false
  | p :: ps, c :: cs => (Char.toLower c = p) && matchesAt ps cs

/-- Raw text up to (excluding) the first occurrence of `pat`. -/
def scanRawTake (pat : List Char) : List Char → List Char
  | [] => []
  | c :: r => if matchesAt pat (c :: r) then [] else c :: scanRawTake pat r

/-- Rest of the input from the first occurrence of `pat` on. -/
def scanRawDrop (pat : List Char) : List Char → List Char
  | [] => []
  | c :: r => if matchesAt pat (c :: r) then c :: r else scanRawDrop pat r

/-- Rest of the input after the first occurrence of `pat` (else `[]`). -/
def dropAfterSeq (pat : List Char) : List Char → List Char
  | [] => []
  | c :: r => if matchesAt pat (c :: r) then (c :: r).drop pat.length else dropAfterSeq pat r

/-- Attribute scanner of a start tag, after the tag name: returns the
attribute list, a self-closing flag, and the input after `'>'`; `none`
when the tag never closes (the whole fragment then degrades to text). -/
def parseAttrsF : Nat → List (String × List Char) → List Char →
    Option (List (String × List Char) × Bool × List Char)
  | 0, _, _ => none
  | f + 1, acc, s =>
    match s.dropWhile isSpc with
    | [] => none
    | '>' :: r => some (acc.reverse, false, r)
    | '/' :: '>' :: r => some (acc.reverse, true, r)
    | '/' :: r => parseAttrsF f acc r
    | c :: cs =>
      let nm := (c :: cs).takeWhile isAttrNameChar
      if nm.isEmpty then parseAttrsF f acc cs
      else
        match ((c :: cs).drop nm.length).dropWhile isSpc with
        | '=' :: r2 =>
          match r2.dropWhile isSpc with
          | '\'' :: r3 =>
            let v := r3.takeWhile (fun x => !(x = '\''))
            (match r3.drop v.length with
             | [] => none
             | _ :: r4 => parseAttrsF f ((lowerStr nm, v) :: acc) r4)
          | '"' :: r3 =>
            let v := r3.takeWhile (fun x => !(x = '"'))
            (match r3.drop v.length with
             | [] => none
             | _ :: r4 => parseAttrsF f ((lowerStr nm, v) :: acc) r4)
          | r3 =>
            let v := r3.takeWhile (fun x => !(isSpc x || x = '>'))
            parseAttrsF f ((lowerStr nm, v) :: acc) (r3.drop v.length)
        | s2 => parseAttrsF f ((lowerStr nm, []) :: acc) s2

/-- Prepend a text token when the accumulated text is non-empty. -/
def pushText (txt : List Char) (toks : List Tok) : List Tok :=
  if txt.isEmpty then toks else Tok.textTok txt :: toks

/-- The tolerant tokenizer.  Fuel bounds the recursion; every recursive
call consumes at least one character, so `length + 1` fuel always
suffices. -/
def tokenizeF : Nat → List Char → List Tok
  | _, [] => []
  | 0, s => [Tok.textTok s]
  | f + 1, s =>
    let txt := s.takeWhile notSpecial
    match s.dropWhile notSpecial with
    | [] => pushText txt []
    | '&' :: 'l' :: 't' :: ';' :: r => pushText txt (Tok.textTok ['<'] :: tokenizeF f r)
    | '&' :: 'g' :: 't' :: ';' :: r => pushText txt (Tok.textTok ['>'] :: tokenizeF f r)
    | '&' :: 'a' :: 'm' :: 'p' :: ';' :: r => pushText txt (Tok.textTok ['&'] :: tokenizeF f r)
    | '&' :: r => pushText txt (Tok.textTok ['&'] :: tokenizeF f r)
    | ['<'] => pushText txt [Tok.textTok ['<']]
    | '<' :: '/' :: r =>
      let nm := r.takeWhile isTagChar
      (match breakAtGt r with
       | none => pushText txt [Tok.textTok ('<' :: '/' :: r)]
       | some rest2 =>
         if nm.isEmpty then pushText txt (tokenizeF f rest2)
         else pushText txt (Tok.closeTag (lowerStr nm) :: tokenizeF f rest2))
    | '<' :: '!' :: '-' :: '-' :: r =>
      pushText txt (tokenizeF f (dropAfterSeq ['-', '-', '>'] r))
    | '<' :: '!' :: r =>
      (match breakAtGt r with
       | none => pushText txt []
       | some rest2 => pushText txt (tokenizeF f rest2))
    | '<' :: '?' :: r =>
      (match breakAtGt r with
       | none => pushText txt []
       | some rest2 => pushText txt (tokenizeF f rest2))
    | '<' :: c :: r =>
      if c.isAlpha then
        let nmRest := r.takeWhile isTagChar
        let nm := lowerStr (c :: nmRest)
        (match parseAttrsF ((r.drop nmRest.length).length + 1) [] (r.drop nmRest.length) with
         | none => pushText txt [Tok.textTok ('<' :: c :: r)]
         | some (attrs, selfC, rest2) =>
           if selfC then
             pushText txt (Tok.openTag nm attrs :: Tok.closeTag nm :: tokenizeF f rest2)
           else if nm ∈ rawTextTags then
             pushText txt (Tok.openTag nm attrs ::
               pushText (scanRawTake ('<' :: '/' :: nm.data) rest2)
                 (tokenizeF f (scanRawDrop ('<' :: '/' :: nm.data) rest2)))
           else pushText txt (Tok.openTag nm attrs :: tokenizeF f rest2))
      else pushText txt (Tok.textTok ['<'] :: tokenizeF f (c :: r))
    | c :: r => Tok.textTok (c :: r) :: []

/-- An open element under construction (children collected in reverse). -/
structure Frame where
  tag : String
  attrs : List (String × List Char)
  rev : List Node

/-- Close a frame into an element node. -/
def finalizeFrame (fr : Frame) : Node :=
  Node.elem fr.tag fr.attrs fr.rev.reverse

/-- Attach a finished node to the innermost open element. -/
def addChild (n : Node) : List Frame → List Frame
  | [] => [⟨sDocumentTag, [], [n]⟩]
  | fr :: rest => ⟨fr.tag, fr.attrs, n :: fr.rev⟩ :: rest

/-- Does an open element with this tag exist (the document root excluded)?
Mirrors BeautifulSoup ignoring an end tag with no matching open tag. -/
def stackHasTag (t : String) : List Frame → Bool
  | [] => false
  | fr :: rest => (decide (fr.tag = t) && !rest.isEmpty) || stackHasTag t rest

/-- Pop open elements up to and including the most recent one tagged `t`:
the innermost frame is carried separately so the recursion is structural
(the bottom frame is never popped). -/
def popToAux (t : String) : Frame → List Frame → List Frame
  | fr, [] => [fr]
  | fr, fr2 :: rest =>
    if fr.tag = t then addChild (finalizeFrame fr) (fr2 :: rest)
    else popToAux t ⟨fr2.tag, fr2.attrs, finalizeFrame fr :: fr2.rev⟩ rest

/-- Pop open elements up to and including the most recent one tagged `t`. -/
def popTo (t : String) : List Frame → List Frame
  | [] => []
  | fr :: rest => popToAux t fr rest

/-- Close every still-open element at end of input (structural form). -/
def collapseStackAux : Frame → List Frame → Node
  | fr, [] => finalizeFrame fr
  | fr, fr2 :: rest => collapseStackAux ⟨fr2.tag, fr2.attrs, finalizeFrame fr :: fr2.rev⟩ rest

/-- Close every still-open element at end of input. -/
def collapseStack : List Frame → Node
  | [] => Node.elem sDocumentTag [] []
  | fr :: rest => collapseStackAux fr rest

/-- Build the document tree from the token stream. -/
def buildAux : List Tok → List Frame → Node
  | [], stack => collapseStack stack
  | Tok.textTok s :: ts, stack => buildAux ts (addChild (Node.text s) stack)
  | Tok.openTag t a :: ts, stack =>
    if t ∈ voidTags then buildAux ts (addChild (Node.elem t a []) stack)
    else buildAux ts (⟨t, a, []⟩ :: stack)
  | Tok.closeTag t :: ts, stack =>
    if stackHasTag t stack then buildAux ts (popTo t stack) else buildAux ts stack

/-- The permissive parse: tokenize and build below a `[document]` root. -/
def parseHtml (s : List Char) : Node :=
  buildAux (tokenizeF (s.length + 1) s) [⟨sDocumentTag, [], []⟩]

/-- `clean_html_content` of `src/data/etl.py`: empty or absent input gives
`""` immediately; otherwise parse, drop script/style and images, rewrite
anchors, extract structured text and normalize whitespace. -/
def clean_html_content : Option (List Char) → List Char
  | none => []
  | some t => if t.isEmpty then [] else normalizeDoc (parseHtml t)

/-- `normalize` on a present string input. -/
def normalizeStr (s : List Char) : List Char := clean_html_content (some s)

/-! ## Auxiliary predicates and concrete inputs used in the theorems -/

/-- The list contains no newline character. -/
def nlFree (l : List Char) : Bool := l.all (fun c => !(c = '\n'))

/-- A line as produced by `_clean_whitespace`: non-empty, stripped,
newline-free, without double spaces. -/
def goodLine (l : List Char) : Bool :=
  !l.isEmpty && headOk l && lastOk l && nlFree l && noDS l

def startsTabTab : List Char → Bool
  | '\t' :: '\t' :: _ => true
  | _ => false

/-- The list contains two consecutive tab characters somewhere. -/
def hasTabTab : List Char → Bool
  | [] => false
  | c :: r => startsTabTab (c :: r) || hasTabTab r

def startsTripleNl : List Char → Bool
  | '\n' :: '\n' :: '\n' :: _ => true
  | _ => false

/-- The list contains three consecutive newlines (a run of two blank
lines) somewhere. -/
def hasTripleNl : List Char → Bool
  | [] => false
  | c :: r => startsTripleNl (c :: r) || hasTripleNl r

def exAnchor : String := "<a href='https://x.test'>Click</a>"
def outAnchor : String := "Click (https://x.test)"
def exAnchorNoUrl : String := "<a href=''>Click</a>"
def outClick : String := "Click"
def exAnchorNoText : String := "<a href='https://x.test'></a>"
def exAnchorBothEmpty : String := "<a href=''></a>"
def exImg : String := "<img src='x.png'>Text"
def outText : String := "Text"
def exStyle : String := "<style>.a\x7bcolor:red\x7d</style><p>Visible</p>"
def outVisible : String := "Visible"
def exScript : String := "<script>var x = 1 < 2;</script><p>Hi</p>"
def outHi : String := "Hi"
def exDedup : String := "<div>Same</div><p>Same</p>"
def sSame : String := "Same"
def exSpaces : String := "<p>Hello  world</p>"
def outHello : String := "Hello world"
def exTabs : String := "<p>a\t\tb</p>"
def outTabs : String := "a\t\tb"
def exHeads : String := "<h1>A</h1><h2>B</h2>"
def outHeads : String := "A\nB"
def exEntity : String := "&lt;p&gt;hello&lt;/p&gt;"
def outEntity : String := "<p>hello</p>"
def outHello2 : String := "hello"
def exUnclosed : String := "<p>unclosed"
def outUnclosed : String := "unclosed"
def exStray : String := "</b>stray"
def outStray : String := "stray"
def exIdem : String := "<p>Hi  there</p>"
def sPlain : String := "just plain text"
def sU : String := "u"
def sT : String := "T"
def outTU : String := "T (u)"
def exParse9 : String := "xyz"

/-- Concrete fallback document for the claim-6 witness: a document whose
only child is a bare text node (no block-level element anywhere). -/
def wFallbackDoc : Node := Node.elem sDocumentTag [] [Node.text sPlain.data]

/-- Concrete anchor attributes/children for the claim-1 witness. -/
def wAnchorAttrs : List (String × List Char) := [(sHref, sU.data)]
def wAnchorKids : List Node := [Node.text sT.data]

/-- Concrete accumulator/element for the claim-3 witness: one emitted
segment `"Same"`, then a `<p>Same</p>` element. -/
def wDedupAcc : List (List Char) := [sSame.data]
def wDedupElem : Node := Node.elem sP [] [Node.text sSame.data]

/-! ## Lemmas on the whitespace primitives -/

theorem takeWhile_all_eq (p : Char → Bool) :
    ∀ l : List Char, l.all p = true → l.takeWhile p = l
  | [], _ => rfl
  | c :: r, h => by
    simp only [List.all_cons, Bool.and_eq_true] at h
    simp [List.takeWhile_cons, h.1, takeWhile_all_eq p r h.2]

theorem dropWhile_all_eq (p : Char → Bool) :
    ∀ l : List Char, l.all p = true → l.dropWhile p = []
  | [], _ => rfl
  | c :: r, h => by
    simp only [List.all_cons, Bool.and_eq_true] at h
    simp [List.dropWhile_cons, h.1, dropWhile_all_eq p r h.2]

theorem all_dropWhile (p q : Char → Bool) :
    ∀ l : List Char, l.all p = true → ((l.dropWhile q).all p) = true
  | [], _ => by simp
  | c :: r, h => by
    simp only [List.all_cons, Bool.and_eq_true] at h
    rw [List.dropWhile_cons]
    cases hq : q c with
    | true => simpa using all_dropWhile p q r h.2
    | false => simp [List.all_cons, h.1, h.2]

theorem all_dropTrailing (p : Char → Bool) :
    ∀ l : List Char, l.all p = true → ((dropTrailing l).all p) = true
  | [], _ => by simp [dropTrailing]
  | c :: r, h => by
    simp only [List.all_cons, Bool.and_eq_true] at h
    have h2 := all_dropTrailing p r h.2
    cases hdt : dropTrailing r with
    | nil =>
      simp only [dropTrailing, hdt]
      cases hc : isSpc c <;> simp [h.1]
    | cons x xs =>
      rw [hdt] at h2
      simp only [dropTrailing, hdt]
      simp [List.all_cons, h.1, h2]

theorem dropTrailing_head :
    ∀ l : List Char, dropTrailing l = [] ∨ (dropTrailing l).head? = l.head?
  | [] => Or.inl rfl
  | c :: r => by
    cases hdt : dropTrailing r with
    | nil =>
      simp only [dropTrailing, hdt]
      cases hc : isSpc c <;> simp
    | cons x xs => simp [dropTrailing, hdt]

theorem lastOk_dropTrailing : ∀ l : List Char, lastOk (dropTrailing l) = true
  | [] => by simp [dropTrailing, lastOk]
  | c :: r => by
    have h2 := lastOk_dropTrailing r
    cases hdt : dropTrailing r with
    | nil =>
      simp only [dropTrailing, hdt]
      cases hc : isSpc c <;> simp [lastOk, hc]
    | cons x xs =>
      rw [hdt] at h2
      simp only [dropTrailing, hdt]
      simpa [lastOk] using h2

theorem dropTrailing_eq_self : ∀ l : List Char, lastOk l = true → dropTrailing l = l
  | [], _ => rfl
  | [c], h => by
    simp only [lastOk, Bool.not_eq_true'] at h
    simp [dropTrailing, h]
  | a :: b :: r, h => by
    have ih := dropTrailing_eq_self (b :: r) (by simpa [lastOk] using h)
    conv_lhs => rw [dropTrailing]
    rw [ih]

theorem headOk_dropWhileSpc : ∀ l : List Char, headOk (l.dropWhile isSpc) = true
  | [] => rfl
  | c :: r => by
    rw [List.dropWhile_cons]
    cases hc : isSpc c with
    | true => simpa using headOk_dropWhileSpc r
    | false => simp [headOk, hc]

theorem dropWhileSpc_eq_self (l : List Char) (h : headOk l = true) :
    l.dropWhile isSpc = l := by
  cases l with
  | nil => rfl
  | cons c r =>
    simp only [headOk, Bool.not_eq_true'] at h
    simp [List.dropWhile_cons, h]

theorem headOk_pyStrip (l : List Char) : headOk (pyStrip l) = true := by
  unfold pyStrip
  rcases dropTrailing_head (l.dropWhile isSpc) with h | h
  · simp [h, headOk]
  · have h1 := headOk_dropWhileSpc l
    cases hdt : dropTrailing (l.dropWhile isSpc) with
    | nil => simp [headOk]
    | cons x xs =>
      rw [hdt] at h
      cases hdw : l.dropWhile isSpc with
      | nil => rw [hdw] at h; simp at h
      | cons y ys =>
        rw [hdw] at h
        simp only [List.head?] at h
        rw [hdw] at h1
        simp only [headOk] at h1 ⊢
        cases h
        exact h1

theorem lastOk_pyStrip (l : List Char) : lastOk (pyStrip l) = true :=
  lastOk_dropTrailing _

theorem pyStrip_eq_self (l : List Char) (h1 : headOk l = true) (h2 : lastOk l = true) :
    pyStrip l = l := by
  unfold pyStrip
  rw [dropWhileSpc_eq_self l h1, dropTrailing_eq_self l h2]

theorem all_pyStrip (p : Char → Bool) (l : List Char) (h : l.all p = true) :
    (pyStrip l).all p = true :=
  all_dropTrailing p _ (all_dropWhile p isSpc l h)

theorem noDS_cons_elim {c : Char} {r : List Char} (h : noDS (c :: r) = true) :
    noDS r = true := by
  simp only [noDS, Bool.and_eq_true] at h
  exact h.2

theorem noDS_space_elim {r : List Char} (h : noDS (' ' :: r) = true) :
    okAfterSpace r = true := by
  simp only [noDS, if_pos rfl, Bool.and_eq_true] at h
  exact h.1

theorem noDS_cons_intro {c : Char} {r : List Char}
    (h1 : c = ' ' → okAfterSpace r = true) (h2 : noDS r = true) :
    noDS (c :: r) = true := by
  by_cases hc : c = ' '
  · simp [noDS, hc, h1 hc, h2]
  · simp [noDS, hc, h2]

theorem noDS_dropWhileSpc : ∀ l : List Char, noDS l = true → noDS (l.dropWhile isSpc) = true
  | [], _ => rfl
  | c :: r, h => by
    rw [List.dropWhile_cons]
    cases hc : isSpc c with
    | true => simpa using noDS_dropWhileSpc r (noDS_cons_elim h)
    | false => simpa using h

theorem noDS_dropTrailing : ∀ l : List Char, noDS l = true → noDS (dropTrailing l) = true
  | [], _ => rfl
  | c :: r, h => by
    have h2 := noDS_dropTrailing r (noDS_cons_elim h)
    cases hdt : dropTrailing r with
    | nil =>
      simp only [dropTrailing, hdt]
      cases hc : isSpc c <;> simp [hc, noDS, okAfterSpace]
    | cons x xs =>
      rw [hdt] at h2
      simp only [dropTrailing, hdt]
      refine noDS_cons_intro (fun hc => ?_) h2
      subst hc
      have hos := noDS_space_elim h
      rcases dropTrailing_head r with hh | hh
      · rw [hdt] at hh; cases hh
      · rw [hdt] at hh
        cases r with
        | nil => simp [dropTrailing] at hdt
        | cons y ys =>
          simp only [List.head?, Option.some.injEq] at hh
          subst hh
          simpa [okAfterSpace] using hos

theorem noDS_pyStrip (l : List Char) (h : noDS l = true) : noDS (pyStrip l) = true :=
  noDS_dropTrailing _ (noDS_dropWhileSpc l h)

theorem noDS_drop : ∀ (k : Nat) (l : List Char), noDS l = true → noDS (l.drop k) = true
  | 0, _, h => h
  | _ + 1, [], _ => rfl
  | k + 1, _ :: r, h => by
    rw [List.drop_succ_cons]
    exact noDS_drop k r (noDS_cons_elim h)

theorem goodNl_cons_elim {c : Char} {r : List Char} (h : goodNl (c :: r) = true) :
    goodNl r = true := by
  simp only [goodNl, Bool.and_eq_true] at h
  exact h.2

theorem goodNl_of_nlFree : ∀ l : List Char, nlFree l = true → goodNl l = true
  | [], _ => rfl
  | c :: r, h => by
    simp only [nlFree, List.all_cons, Bool.and_eq_true, Bool.not_eq_true'] at h
    have hr : nlFree r = true := by
      simp only [nlFree]
      exact h.2
    have ih := goodNl_of_nlFree r hr
    have hc : ¬ c = '\n' := by simpa using h.1
    simp [goodNl, hc, ih]

theorem noNlNl_of_goodNl : ∀ l : List Char, goodNl l = true → noNlNl l = true
  | [], _ => rfl
  | c :: r, h => by
    have h2 := noNlNl_of_goodNl r (goodNl_cons_elim h)
    by_cases hc : c = '\n'
    · subst hc
      simp only [goodNl, if_pos rfl, Bool.and_eq_true] at h
      have hok : okAfterNl r = true := by
        cases r with
        | nil => rfl
        | cons x xs =>
          have hx := h.1
          simp only [headOk, Bool.not_eq_true'] at hx
          have hxn : ¬ x = '\n' := by
            intro hxx
            subst hxx
            exact absurd hx (by decide)
          simp [okAfterNl, hxn]
      simp [noNlNl, hok, h2]
    · simp [noNlNl, hc, h2]

theorem collapseSpaces_head_of_ne (d : Char) (r : List Char) (hd : ¬ d = ' ') :
    (collapseSpaces (d :: r)).head? = some d := by
  cases r with
  | nil => rfl
  | cons e r' =>
    simp only [collapseSpaces]
    rw [if_neg (by rintro ⟨h1, _⟩; exact hd h1)]
    rfl

theorem noDS_collapseSpaces : ∀ l : List Char, noDS (collapseSpaces l) = true
  | [] => rfl
  | [c] => by
    refine noDS_cons_intro (fun _ => rfl) rfl
  | c :: d :: r => by
    have ih := noDS_collapseSpaces (d :: r)
    by_cases h : c = ' ' ∧ d = ' '
    · simp only [collapseSpaces]
      rw [if_pos h]
      exact ih
    · simp only [collapseSpaces]
      rw [if_neg h]
      refine noDS_cons_intro (fun hc => ?_) ih
      subst hc
      have hd : ¬ d = ' ' := fun hd => h ⟨rfl, hd⟩
      have hhd := collapseSpaces_head_of_ne d r hd
      cases hcs : collapseSpaces (d :: r) with
      | nil => rfl
      | cons z zs =>
        rw [hcs] at hhd
        simp only [List.head?, Option.some.injEq] at hhd
        subst hhd
        simpa [okAfterSpace] using hd

theorem collapseSpaces_eq_self : ∀ l : List Char, noDS l = true → collapseSpaces l = l
  | [], _ => rfl
  | [_], _ => rfl
  | c :: d :: r, h => by
    have hnd : ¬ (c = ' ' ∧ d = ' ') := by
      rintro ⟨rfl, rfl⟩
      have := noDS_space_elim h
      simp [okAfterSpace] at this
    simp only [collapseSpaces]
    rw [if_neg hnd, collapseSpaces_eq_self (d :: r) (noDS_cons_elim h)]

theorem collapseBlankF_head : ∀ (f : Nat) (l : List Char),
    (collapseBlankF f l).head? = l.head?
  | 0, [] => rfl
  | _ + 1, [] => rfl
  | 0, _ :: _ => rfl
  | f + 1, c :: r => by
    by_cases hc : c = '\n' ∧ 3 ≤ countNl ((c :: r).takeWhile isSpc)
    · simp only [collapseBlankF]
      rw [if_pos hc]
      simp [hc.1]
    · simp only [collapseBlankF]
      rw [if_neg hc]
      rfl

theorem collapseBlank_head (l : List Char) : (collapseBlank l).head? = l.head? :=
  collapseBlankF_head l.length l

theorem noDS_collapseBlankF : ∀ (f : Nat) (l : List Char), noDS l = true →
    noDS (collapseBlankF f l) = true
  | 0, [], h => h
  | _ + 1, [], h => h
  | 0, _ :: _, h => h
  | f + 1, c :: r, h => by
    by_cases hc : c = '\n' ∧ 3 ≤ countNl ((c :: r).takeWhile isSpc)
    · simp only [collapseBlankF]
      rw [if_pos hc]
      have hrec := noDS_collapseBlankF f
        (r.drop ((upToLastNl ((c :: r).takeWhile isSpc)).length - 1))
        (noDS_drop _ r (noDS_cons_elim h))
      refine noDS_cons_intro (fun hx => absurd hx (by decide)) ?_
      exact noDS_cons_intro (fun hx => absurd hx (by decide)) hrec
    · simp only [collapseBlankF]
      rw [if_neg hc]
      refine noDS_cons_intro (fun hx => ?_) (noDS_collapseBlankF f r (noDS_cons_elim h))
      subst hx
      have hos := noDS_space_elim h
      have hh := collapseBlankF_head f r
      cases hcb : collapseBlankF f r with
      | nil => rfl
      | cons z zs =>
        rw [hcb] at hh
        cases r with
        | nil => simp [collapseBlankF] at hcb
        | cons y ys =>
          simp only [List.head?, Option.some.injEq] at hh
          subst hh
          simpa [okAfterSpace] using hos

theorem noDS_collapseBlank (l : List Char) (hl : noDS l = true) :
    noDS (collapseBlank l) = true :=
  noDS_collapseBlankF l.length l hl

theorem collapseBlankF_eq_self : ∀ (f : Nat) (l : List Char), goodNl l = true →
    collapseBlankF f l = l
  | 0, [], _ => rfl
  | _ + 1, [], _ => rfl
  | 0, _ :: _, _ => rfl
  | f + 1, c :: r, hl => by
    by_cases hc : c = '\n' ∧ 3 ≤ countNl ((c :: r).takeWhile isSpc)
    · exfalso
      obtain ⟨hc1, hcount⟩ := hc
      subst hc1
      simp only [goodNl, if_pos rfl, Bool.and_eq_true] at hl
      have hr := hl.1
      have htw : ('\n' :: r).takeWhile isSpc = ['\n'] := by
        rw [List.takeWhile_cons]
        rw [if_pos (by decide : isSpc '\n' = true)]
        cases r with
        | nil => rfl
        | cons x xs =>
          have hx : isSpc x = false := by simpa [headOk] using hr
          rw [List.takeWhile_cons, hx]
          simp
      rw [htw] at hcount
      exact absurd hcount (by decide)
    · simp only [collapseBlankF]
      rw [if_neg hc, collapseBlankF_eq_self f r (goodNl_cons_elim hl)]

theorem collapseBlank_eq_self (l : List Char) (hl : goodNl l = true) :
    collapseBlank l = l :=
  collapseBlankF_eq_self l.length l hl

theorem splitNl_ne_nil : ∀ l : List Char, splitNl l ≠ []
  | [] => by simp [splitNl]
  | c :: r => by
    by_cases hc : c = '\n'
    · simp [splitNl, hc]
    · simp only [splitNl, if_neg hc]
      cases hs : splitNl r with
      | nil => simp
      | cons m ms => simp

theorem splitNl_first : ∀ (l m : List Char) (ms : List (List Char)),
    splitNl l = m :: ms → m = l.takeWhile (fun c => !(c = '\n'))
  | [], m, ms, h => by
    simp only [splitNl, List.cons.injEq] at h
    simp [← h.1]
  | c :: r, m, ms, h => by
    by_cases hc : c = '\n'
    · subst hc
      simp [splitNl] at h
      rw [List.takeWhile_cons]
      simp [← h.1]
    · simp only [splitNl, if_neg hc] at h
      cases hs : splitNl r with
      | nil => exact absurd hs (splitNl_ne_nil r)
      | cons m' ms' =>
        rw [hs] at h
        simp only [List.cons.injEq] at h
        have := splitNl_first r m' ms' hs
        rw [List.takeWhile_cons]
        simp [hc, ← h.1, this]

theorem splitNl_nlFree : ∀ (l : List Char), ∀ m ∈ splitNl l, nlFree m = true
  | [], m, hm => by
    simp only [splitNl, List.mem_singleton] at hm
    subst hm; rfl
  | c :: r, m, hm => by
    by_cases hc : c = '\n'
    · subst hc
      simp only [splitNl, if_pos] at hm
      rw [List.mem_cons] at hm
      rcases hm with rfl | hm
      · rfl
      · exact splitNl_nlFree r m hm
    · simp only [splitNl, if_neg hc] at hm
      cases hs : splitNl r with
      | nil => exact absurd hs (splitNl_ne_nil r)
      | cons m' ms' =>
        rw [hs] at hm
        rw [List.mem_cons] at hm
        rcases hm with rfl | hm
        · have h1 := splitNl_nlFree r m' (by rw [hs]; exact List.mem_cons_self _ _)
          simp only [nlFree, List.all_cons, Bool.and_eq_true]
          exact ⟨by simpa using hc, by simpa [nlFree] using h1⟩
        · exact splitNl_nlFree r m (by rw [hs]; exact List.mem_cons_of_mem _ hm)

theorem splitNl_noDS : ∀ (l : List Char), noDS l = true → ∀ m ∈ splitNl l, noDS m = true
  | [], _, m, hm => by
    simp only [splitNl, List.mem_singleton] at hm
    subst hm; rfl
  | c :: r, h, m, hm => by
    by_cases hc : c = '\n'
    · subst hc
      simp only [splitNl, if_pos] at hm
      rw [List.mem_cons] at hm
      rcases hm with rfl | hm
      · rfl
      · exact splitNl_noDS r (noDS_cons_elim h) m hm
    · simp only [splitNl, if_neg hc] at hm
      cases hs : splitNl r with
      | nil => exact absurd hs (splitNl_ne_nil r)
      | cons m' ms' =>
        rw [hs] at hm
        rw [List.mem_cons] at hm
        rcases hm with rfl | hm
        · have h1 := splitNl_noDS r (noDS_cons_elim h) m' (by rw [hs]; exact List.mem_cons_self _ _)
          refine noDS_cons_intro (fun hcs => ?_) h1
          subst hcs
          have hos := noDS_space_elim h
          have hm' := splitNl_first r m' ms' hs
          cases r with
          | nil =>
            simp only [List.takeWhile_nil] at hm'
            subst hm'; rfl
          | cons y ys =>
            rw [List.takeWhile_cons] at hm'
            by_cases hy : y = '\n'
            · rw [if_neg (by simp [hy])] at hm'
              subst hm'; rfl
            · rw [if_pos (by simp [hy])] at hm'
              subst hm'
              simpa [okAfterSpace] using hos
        · exact splitNl_noDS r (noDS_cons_elim h) m (by rw [hs]; exact List.mem_cons_of_mem _ hm)

theorem splitNl_of_nlFree : ∀ l : List Char, nlFree l = true → splitNl l = [l]
  | [], _ => rfl
  | c :: r, h => by
    simp only [nlFree, List.all_cons, Bool.and_eq_true, Bool.not_eq_true'] at h
    have hc : ¬ c = '\n' := by simpa using h.1
    have ih := splitNl_of_nlFree r (by simp only [nlFree]; exact h.2)
    simp [splitNl, hc, ih]

theorem splitNl_append_nl : ∀ (a t : List Char), nlFree a = true →
    splitNl (a ++ '\n' :: t) = a :: splitNl t
  | [], t, _ => by simp [splitNl]
  | c :: a', t, h => by
    simp only [nlFree, List.all_cons, Bool.and_eq_true, Bool.not_eq_true'] at h
    have hc : ¬ c = '\n' := by simpa using h.1
    have ih := splitNl_append_nl a' t (by simp only [nlFree]; exact h.2)
    rw [List.cons_append]
    conv_lhs => rw [splitNl]
    rw [if_neg hc, ih]

theorem splitNl_joinNl : ∀ (M : List (List Char)), M ≠ [] →
    (∀ l ∈ M, nlFree l = true) → splitNl (joinNl M) = M
  | [], h, _ => absurd rfl h
  | [l], _, hf => by
    simp only [joinNl]
    exact splitNl_of_nlFree l (hf l (List.mem_singleton.mpr rfl))
  | l :: l2 :: M', _, hf => by
    have ih := splitNl_joinNl (l2 :: M') (by simp) (fun x hx => hf x (List.mem_cons_of_mem _ hx))
    rw [show joinNl (l :: l2 :: M') = l ++ '\n' :: joinNl (l2 :: M') from rfl]
    rw [splitNl_append_nl _ _ (hf l (List.mem_cons_self _ _)), ih]

theorem headOk_append_left (a b : List Char) (ha : a ≠ []) :
    headOk (a ++ b) = headOk a := by
  cases a with
  | nil => exact absurd rfl ha
  | cons c r => rfl

theorem lastOk_append_right : ∀ (a b : List Char), b ≠ [] → lastOk (a ++ b) = lastOk b
  | [], _, _ => rfl
  | [c], b, hb => by
    cases b with
    | nil => exact absurd rfl hb
    | cons x xs => rfl
  | c :: d :: a', b, hb => by
    have ih := lastOk_append_right (d :: a') b hb
    calc lastOk ((c :: d :: a') ++ b) = lastOk ((d :: a') ++ b) := rfl
    _ = lastOk b := ih

theorem noDS_append_nl : ∀ (a t : List Char), noDS a = true → noDS t = true →
    noDS (a ++ '\n' :: t) = true
  | [], t, _, ht => by
    simp only [List.nil_append]
    exact noDS_cons_intro (fun h => absurd h (by decide)) ht
  | c :: a', t, ha, ht => by
    have ih := noDS_append_nl a' t (noDS_cons_elim ha) ht
    simp only [List.cons_append]
    refine noDS_cons_intro (fun hc => ?_) ih
    subst hc
    have hos := noDS_space_elim ha
    cases a' with
    | nil => rfl
    | cons y ys => simpa [okAfterSpace, List.cons_append] using hos

theorem goodNl_append_nl : ∀ (a t : List Char), nlFree a = true → headOk t = true →
    goodNl t = true → goodNl (a ++ '\n' :: t) = true
  | [], t, _, hh, hg => by
    simp only [List.nil_append]
    simp [goodNl, hh, hg]
  | c :: a', t, ha, hh, hg => by
    simp only [nlFree, List.all_cons, Bool.and_eq_true, Bool.not_eq_true'] at ha
    have hc : ¬ c = '\n' := by simpa using ha.1
    have ih := goodNl_append_nl a' t (by simp only [nlFree]; exact ha.2) hh hg
    simp only [List.cons_append]
    simp [goodNl, hc, ih]

theorem map_eq_self_of_fix {α : Type} (f : α → α) :
    ∀ L : List α, (∀ x ∈ L, f x = x) → L.map f = L
  | [], _ => rfl
  | x :: L', h => by
    simp [List.map_cons, h x (List.mem_cons_self _ _),
      map_eq_self_of_fix f L' (fun y hy => h y (List.mem_cons_of_mem _ hy))]

theorem filter_eq_self_of_all {α : Type} (p : α → Bool) :
    ∀ L : List α, (∀ x ∈ L, p x = true) → L.filter p = L
  | [], _ => rfl
  | x :: L', h => by
    simp [List.filter_cons, h x (List.mem_cons_self _ _),
      filter_eq_self_of_all p L' (fun y hy => h y (List.mem_cons_of_mem _ hy))]

theorem goodLine_elim {l : List Char} (h : goodLine l = true) :
    l ≠ [] ∧ headOk l = true ∧ lastOk l = true ∧ nlFree l = true ∧ noDS l = true := by
  simp only [goodLine, Bool.and_eq_true, Bool.not_eq_true'] at h
  refine ⟨?_, h.1.1.1.2, h.1.1.2, h.1.2, h.2⟩
  intro hl
  subst hl
  simp at h

theorem joinNl_two_or_more (l l2 : List Char) (M' : List (List Char)) :
    joinNl (l :: l2 :: M') = l ++ '\n' :: joinNl (l2 :: M') := rfl

theorem joinNl_cons_shape (l2 : List Char) (M' : List (List Char)) :
    joinNl (l2 :: M') = l2 ∨ joinNl (l2 :: M') = l2 ++ '\n' :: joinNl M' := by
  cases M' with
  | nil => exact Or.inl rfl
  | cons a b => exact Or.inr rfl

theorem joinNl_cons_ne (l2 : List Char) (M' : List (List Char)) (h : l2 ≠ []) :
    joinNl (l2 :: M') ≠ [] := by
  rcases joinNl_cons_shape l2 M' with hh | hh <;> rw [hh]
  · exact h
  · cases l2 with
    | nil => exact absurd rfl h
    | cons a b => simp

theorem joinNl_facts : ∀ M : List (List Char), (∀ l ∈ M, goodLine l = true) → M ≠ [] →
    noDS (joinNl M) = true ∧ goodNl (joinNl M) = true ∧
    headOk (joinNl M) = true ∧ lastOk (joinNl M) = true
  | [], _, hM => absurd rfl hM
  | [l], hf, _ => by
    have h := goodLine_elim (hf l (List.mem_singleton.mpr rfl))
    simp only [joinNl]
    exact ⟨h.2.2.2.2, goodNl_of_nlFree l h.2.2.2.1, h.2.1, h.2.2.1⟩
  | l :: l2 :: M', hf, _ => by
    have ih := joinNl_facts (l2 :: M') (fun x hx => hf x (List.mem_cons_of_mem _ hx)) (by simp)
    have hl := goodLine_elim (hf l (List.mem_cons_self _ _))
    have hl2 := goodLine_elim (hf l2 (List.mem_cons_of_mem _ (List.mem_cons_self _ _)))
    have hjne : joinNl (l2 :: M') ≠ [] := joinNl_cons_ne l2 M' hl2.1
    rw [joinNl_two_or_more]
    refine ⟨noDS_append_nl l _ hl.2.2.2.2 ih.1, ?_, ?_, ?_⟩
    · exact goodNl_append_nl l _ hl.2.2.2.1 ih.2.2.1 ih.2.1
    · rw [headOk_append_left l _ hl.1]
      exact hl.2.1
    · rw [lastOk_append_right l _ (by simp)]
      have : lastOk ('\n' :: joinNl (l2 :: M')) = lastOk (joinNl (l2 :: M')) := by
        cases hj : joinNl (l2 :: M') with
        | nil => exact absurd hj hjne
        | cons x xs => rfl
      rw [this]
      exact ih.2.2.2

theorem cleanWS_shape (t : List Char) :
    cleanWhitespace t = [] ∨
    ∃ M, M ≠ [] ∧ (∀ l ∈ M, goodLine l = true) ∧ cleanWhitespace t = joinNl M := by
  have hds : noDS (collapseBlank (collapseSpaces t)) = true :=
    noDS_collapseBlank _ (noDS_collapseSpaces t)
  set u := collapseBlank (collapseSpaces t) with hu
  set kept := ((splitNl u).map pyStrip).filter (fun l => !l.isEmpty) with hkdef
  have hcw : cleanWhitespace t = pyStrip (joinNl kept) := rfl
  have hkeep : ∀ l ∈ kept, goodLine l = true := by
    intro l hl
    rw [hkdef] at hl
    rw [List.mem_filter] at hl
    obtain ⟨hmem, hne⟩ := hl
    rw [List.mem_map] at hmem
    obtain ⟨m, hm, rfl⟩ := hmem
    have h1 : nlFree (pyStrip m) = true := by
      have := splitNl_nlFree u m hm
      simp only [nlFree] at this ⊢
      exact all_pyStrip _ m this
    have h2 : noDS (pyStrip m) = true := noDS_pyStrip m (splitNl_noDS u hds m hm)
    simp only [goodLine, Bool.and_eq_true]
    exact ⟨⟨⟨⟨hne, headOk_pyStrip m⟩, lastOk_pyStrip m⟩, h1⟩, h2⟩
  cases hkept : kept with
  | nil =>
    left
    rw [hcw, hkept]
    rfl
  | cons k ks =>
    right
    refine ⟨kept, by rw [hkept]; simp, hkeep, ?_⟩
    rw [hcw]
    have hf := joinNl_facts kept hkeep (by rw [hkept]; simp)
    exact pyStrip_eq_self _ hf.2.2.1 hf.2.2.2

theorem cleanWS_empty : cleanWhitespace [] = [] := rfl

theorem cleanWS_fix (y : List Char)
    (hy : y = [] ∨ ∃ M, M ≠ [] ∧ (∀ l ∈ M, goodLine l = true) ∧ y = joinNl M) :
    cleanWhitespace y = y := by
  rcases hy with rfl | ⟨M, hMne, hMf, rfl⟩
  · exact cleanWS_empty
  · have hf := joinNl_facts M hMf hMne
    have h1 : collapseSpaces (joinNl M) = joinNl M := collapseSpaces_eq_self _ hf.1
    have h2 : collapseBlank (joinNl M) = joinNl M := collapseBlank_eq_self _ hf.2.1
    have h3 : splitNl (joinNl M) = M :=
      splitNl_joinNl M hMne (fun l hl => (goodLine_elim (hMf l hl)).2.2.2.1)
    have h4 : M.map pyStrip = M := by
      refine map_eq_self_of_fix pyStrip M (fun l hl => ?_)
      have h := goodLine_elim (hMf l hl)
      exact pyStrip_eq_self l h.2.1 h.2.2.1
    have h5 : M.filter (fun l => !l.isEmpty) = M := by
      refine filter_eq_self_of_all _ M (fun l hl => ?_)
      have h := goodLine_elim (hMf l hl)
      cases hc : l with
      | nil => exact absurd hc h.1
      | cons a b => simp
    show pyStrip (joinNl (((splitNl (collapseBlank (collapseSpaces (joinNl M)))).map
      pyStrip).filter (fun l => !l.isEmpty))) = joinNl M
    rw [h1, h2, h3, h4, h5]
    exact pyStrip_eq_self _ hf.2.2.1 hf.2.2.2

theorem cleanWS_idem (t : List Char) :
    cleanWhitespace (cleanWhitespace t) = cleanWhitespace t :=
  cleanWS_fix _ (cleanWS_shape t)

theorem cleanWS_facts (t : List Char) :
    noNlNl (cleanWhitespace t) = true ∧
    noDS (cleanWhitespace t) = true ∧
    (∀ l ∈ splitNl (cleanWhitespace t), pyStrip l = l) ∧
    (cleanWhitespace t = [] ∨ ∀ l ∈ splitNl (cleanWhitespace t), l ≠ []) ∧
    pyStrip (cleanWhitespace t) = cleanWhitespace t := by
  rcases cleanWS_shape t with h | ⟨M, hMne, hMf, h⟩
  · rw [h]
    refine ⟨rfl, rfl, ?_, Or.inl rfl, rfl⟩
    intro l hl
    simp only [splitNl, List.mem_singleton] at hl
    subst hl
    rfl
  · rw [h]
    have hf := joinNl_facts M hMf hMne
    have hsp : splitNl (joinNl M) = M :=
      splitNl_joinNl M hMne (fun l hl => (goodLine_elim (hMf l hl)).2.2.2.1)
    refine ⟨noNlNl_of_goodNl _ hf.2.1, hf.1, ?_, Or.inr ?_, pyStrip_eq_self _ hf.2.2.1 hf.2.2.2⟩
    · intro l hl
      rw [hsp] at hl
      have hg := goodLine_elim (hMf l hl)
      exact pyStrip_eq_self l hg.2.1 hg.2.2.1
    · intro l hl
      rw [hsp] at hl
      exact (goodLine_elim (hMf l hl)).1

theorem clean_html_shape (o : Option (List Char)) :
    clean_html_content o = [] ∨
    ∃ u, clean_html_content o = cleanWhitespace u := by
  cases o with
  | none => exact Or.inl rfl
  | some t =>
    cases t with
    | nil => exact Or.inl rfl
    | cons c r =>
      exact Or.inr ⟨extractStructuredText (cleanTree (parseHtml (c :: r))), rfl⟩

theorem output_facts (o : Option (List Char)) :
    noNlNl (clean_html_content o) = true ∧
    noDS (clean_html_content o) = true ∧
    (∀ l ∈ splitNl (clean_html_content o), pyStrip l = l) ∧
    (clean_html_content o = [] ∨ ∀ l ∈ splitNl (clean_html_content o), l ≠ []) ∧
    pyStrip (clean_html_content o) = clean_html_content o := by
  rcases clean_html_shape o with h | ⟨u, h⟩
  · rw [h]
    refine ⟨rfl, rfl, ?_, Or.inl rfl, rfl⟩
    intro l hl
    simp only [splitNl, List.mem_singleton] at hl
    subst hl
    rfl
  · rw [h]
    exact cleanWS_facts u

/-! ## Lemmas on the tree passes -/

theorem nodeMutualInd (P : Node → Prop) (Q : List Node → Prop)
    (ht : ∀ s, P (Node.text s))
    (he : ∀ t a cs, Q cs → P (Node.elem t a cs))
    (h0 : Q [])
    (h1 : ∀ n ns, P n → Q ns → Q (n :: ns)) :
    (∀ n, P n) ∧ (∀ ns, Q ns) := by
  constructor
  · intro n
    induction n using Node.rec (motive_2 := Q) with
    | text s => exact ht s
    | elem t a cs hcs => exact he t a cs hcs
    | nil => exact h0
    | cons n ns hn hns => exact h1 n ns hn hns
  · intro ns
    induction ns using List.rec with
    | nil => exact h0
    | cons n ns hns =>
      refine h1 n ns ?_ hns
      induction n using Node.rec (motive_2 := Q) with
      | text s => exact ht s
      | elem t a cs hcs => exact he t a cs hcs
      | nil => exact h0
      | cons m ms hm hms => exact h1 m ms hm hms

theorem noTagsL_append (S : List String) : ∀ a b : List Node,
    noTagsL S (a ++ b) = (noTagsL S a && noTagsL S b)
  | [], b => by simp [noTagsL]
  | n :: a', b => by
    simp [noTagsL, noTagsL_append S a' b, Bool.and_assoc]

theorem removeTags_noTags (S : List String) :
    (∀ n : Node, noTagsL S (removeTagsOne S n) = true) ∧
    (∀ ns : List Node, noTagsL S (removeTagsL S ns) = true) := by
  refine nodeMutualInd _ _ ?_ ?_ ?_ ?_
  · intro s
    simp [removeTagsOne, noTagsL, noTagsN]
  · intro t a cs hcs
    by_cases hmem : t ∈ S
    · simp [removeTagsOne, hmem, noTagsL]
    · simp only [removeTagsOne, if_neg hmem]
      simp [noTagsL, noTagsN, hmem, hcs]
  · rfl
  · intro n ns hn hns
    simp only [removeTagsL]
    rw [noTagsL_append]
    simp [hn, hns]

theorem removeTags_preserve (S T : List String) :
    (∀ n, noTagsN T n = true → noTagsL T (removeTagsOne S n) = true) ∧
    (∀ ns, noTagsL T ns = true → noTagsL T (removeTagsL S ns) = true) := by
  refine nodeMutualInd _ _ ?_ ?_ ?_ ?_
  · intro s _
    simp [removeTagsOne, noTagsL, noTagsN]
  · intro t a cs hcs hn
    simp only [noTagsN, Bool.and_eq_true] at hn
    by_cases hmem : t ∈ S
    · simp [removeTagsOne, hmem, noTagsL]
    · simp only [removeTagsOne, if_neg hmem]
      simp only [noTagsL, noTagsN, Bool.and_eq_true]
      exact ⟨⟨hn.1, hcs hn.2⟩, trivial⟩
  · intro _
    rfl
  · intro n ns hn hns h
    simp only [noTagsL, Bool.and_eq_true] at h
    simp only [removeTagsL]
    rw [noTagsL_append]
    simp [hn h.1, hns h.2]

theorem handleLinks_shape (t : String) (a : List (String × List Char)) (cs : List Node) :
    (∃ s, handleLinksN (Node.elem t a cs) = Node.text s) ∨
    handleLinksN (Node.elem t a cs) = Node.elem t a (handleLinksL cs) := by
  simp only [handleLinksN]
  by_cases ht : t = sAnchor
  · rw [if_pos ht]
    cases lookupAttr sHref a with
    | none => exact Or.inr rfl
    | some u =>
      dsimp only
      by_cases hcond : pyStrip (getTextL cs) ≠ [] ∧ u ≠ []
      · exact Or.inl ⟨_, by rw [if_pos hcond]⟩
      · exact Or.inr (by rw [if_neg hcond])
  · rw [if_neg ht]
    exact Or.inr rfl

theorem handleLinks_preserve (T : List String) :
    (∀ n, noTagsN T n = true → noTagsN T (handleLinksN n) = true) ∧
    (∀ ns, noTagsL T ns = true → noTagsL T (handleLinksL ns) = true) := by
  refine nodeMutualInd _ _ ?_ ?_ ?_ ?_
  · intro s h
    exact h
  · intro t a cs hcs hn
    simp only [noTagsN, Bool.and_eq_true] at hn
    rcases handleLinks_shape t a cs with ⟨s, hs⟩ | hs <;> rw [hs]
    · rfl
    · simp only [noTagsN, Bool.and_eq_true]
      exact ⟨hn.1, hcs hn.2⟩
  · intro _
    rfl
  · intro n ns hn hns h
    simp only [noTagsL, Bool.and_eq_true] at h
    simp only [handleLinksL, noTagsL, Bool.and_eq_true]
    exact ⟨hn h.1, hns h.2⟩

theorem findAll_empty (S : List String) :
    (∀ n, noTagsN S n = true → findAllOne S n = []) ∧
    (∀ ns, noTagsL S ns = true → findAllL S ns = []) := by
  refine nodeMutualInd _ _ ?_ ?_ ?_ ?_
  · intro s _
    rfl
  · intro t a cs hcs hn
    simp only [noTagsN, Bool.and_eq_true] at hn
    simp only [findAllOne]
    have hmem : t ∉ S := by simpa using hn.1
    rw [if_neg hmem, hcs hn.2]
    rfl
  · intro _
    rfl
  · intro n ns hn hns h
    simp only [noTagsL, Bool.and_eq_true] at h
    simp only [findAllL]
    rw [hn h.1, hns h.2]
    rfl

theorem noTags_mono (S T : List String) (hsub : ∀ x ∈ T, x ∈ S) :
    (∀ n, noTagsN S n = true → noTagsN T n = true) ∧
    (∀ ns, noTagsL S ns = true → noTagsL T ns = true) := by
  refine nodeMutualInd _ _ ?_ ?_ ?_ ?_
  · intro s _
    rfl
  · intro t a cs hcs hn
    simp only [noTagsN, Bool.and_eq_true] at hn ⊢
    refine ⟨?_, hcs hn.2⟩
    have h1 : t ∉ S := by simpa using hn.1
    simp only [decide_eq_true_eq]
    intro ht
    exact h1 (hsub t ht)
  · intro _
    rfl
  · intro n ns hn hns h
    simp only [noTagsL, Bool.and_eq_true] at h ⊢
    exact ⟨hn h.1, hns h.2⟩

theorem cleanTree_noTag (root : Node) :
    noTagBelow sScript (cleanTree root) = true ∧
    noTagBelow sStyle (cleanTree root) = true ∧
    noTagBelow sImg (cleanTree root) = true := by
  cases root with
  | text s => exact ⟨rfl, rfl, rfl⟩
  | elem t a cs =>
    have h1 : noTagsL scriptStyleTags (removeTagsL scriptStyleTags cs) = true :=
      (removeTags_noTags scriptStyleTags).2 cs
    have h2 : noTagsL imgTags (removeTagsL imgTags (removeTagsL scriptStyleTags cs)) = true :=
      (removeTags_noTags imgTags).2 _
    have h3 : noTagsL scriptStyleTags
        (removeTagsL imgTags (removeTagsL scriptStyleTags cs)) = true :=
      (removeTags_preserve imgTags scriptStyleTags).2 _ h1
    have hss : noTagsL scriptStyleTags
        (handleLinksL (removeTagsL imgTags (removeTagsL scriptStyleTags cs))) = true :=
      (handleLinks_preserve scriptStyleTags).2 _ h3
    have himg : noTagsL imgTags
        (handleLinksL (removeTagsL imgTags (removeTagsL scriptStyleTags cs))) = true :=
      (handleLinks_preserve imgTags).2 _ h2
    have hscript : noTagsL [sScript]
        (handleLinksL (removeTagsL imgTags (removeTagsL scriptStyleTags cs))) = true :=
      (noTags_mono scriptStyleTags [sScript] (by
        intro x hx
        rw [List.mem_singleton] at hx
        subst hx
        exact List.mem_cons_self _ _)).2 _ hss
    have hstyle : noTagsL [sStyle]
        (handleLinksL (removeTagsL imgTags (removeTagsL scriptStyleTags cs))) = true :=
      (noTags_mono scriptStyleTags [sStyle] (by
        intro x hx
        rw [List.mem_singleton] at hx
        subst hx
        exact List.mem_cons_of_mem _ (List.mem_cons_self _ _))).2 _ hss
    have hct : cleanTree (Node.elem t a cs) =
        handleLinksN (Node.elem t a (removeTagsL imgTags (removeTagsL scriptStyleTags cs))) := rfl
    rw [hct]
    rcases handleLinks_shape t a (removeTagsL imgTags (removeTagsL scriptStyleTags cs))
      with ⟨s, hs⟩ | hs <;> rw [hs]
    · exact ⟨rfl, rfl, rfl⟩
    · exact ⟨hscript, hstyle, himg⟩

theorem noBlock_fallback (root : Node) (h : noTagsN blockTags root = true) :
    normalizeDoc root = cleanWhitespace (getTextN (cleanTree root)) := by
  have hct : noTagsN blockTags (cleanTree root) = true := by
    cases root with
    | text s => rfl
    | elem t a cs =>
      simp only [noTagsN, Bool.and_eq_true] at h
      have h1 : noTagsL blockTags (removeTagsL scriptStyleTags cs) = true :=
        (removeTags_preserve scriptStyleTags blockTags).2 cs h.2
      have h2 : noTagsL blockTags (removeTagsL imgTags (removeTagsL scriptStyleTags cs)) = true :=
        (removeTags_preserve imgTags blockTags).2 _ h1
      have h3 := (handleLinks_preserve blockTags).1
        (Node.elem t a (removeTagsL imgTags (removeTagsL scriptStyleTags cs)))
        (by
          simp only [noTagsN, Bool.and_eq_true]
          exact ⟨h.1, h2⟩)
      exact h3
  have hfa : soupFindAll blockTags (cleanTree root) = [] := by
    cases hc : cleanTree root with
    | text s => rfl
    | elem t a cs =>
      rw [hc] at hct
      simp only [noTagsN, Bool.and_eq_true] at hct
      exact (findAll_empty blockTags).2 cs hct.2
  show cleanWhitespace (extractStructuredText (cleanTree root)) = _
  rw [show extractStructuredText (cleanTree root) =
      (if ((soupFindAll blockTags (cleanTree root)).foldl extractStep []).isEmpty
       then getTextN (cleanTree root)
       else joinNl ((soupFindAll blockTags (cleanTree root)).foldl extractStep [])) from rfl]
  rw [hfa]
  rfl

theorem parse_plain_text (s : List Char) (hs : s ≠ [])
    (h : ∀ c ∈ s, notSpecial c = true) :
    parseHtml s = Node.elem sDocumentTag [] [Node.text s] := by
  have hall : s.all notSpecial = true := List.all_eq_true.mpr h
  have htw : s.takeWhile notSpecial = s := takeWhile_all_eq notSpecial s hall
  have hdw : s.dropWhile notSpecial = [] := dropWhile_all_eq notSpecial s hall
  cases s with
  | nil => exact absurd rfl hs
  | cons c r =>
    show buildAux (tokenizeF ((c :: r).length + 1) (c :: r)) [⟨sDocumentTag, [], []⟩] = _
    rw [show (c :: r).length + 1 = (r.length + 1) + 1 by simp]
    rw [show tokenizeF (r.length + 1 + 1) (c :: r) = [Tok.textTok (c :: r)] from by
      simp only [tokenizeF]
      rw [hdw, htw]
      simp [pushText]]
    rfl

theorem normalizeDoc_plain (y : List Char) :
    normalizeDoc (Node.elem sDocumentTag [] [Node.text y]) = cleanWhitespace y := by
  have e2 : handleLinksN (Node.elem sDocumentTag [] [Node.text y]) =
      Node.elem sDocumentTag [] [Node.text y] := by
    simp only [handleLinksN]
    rw [if_neg (by decide : ¬ sDocumentTag = sAnchor)]
    simp [handleLinksL, handleLinksN]
  have e1 : cleanTree (Node.elem sDocumentTag [] [Node.text y]) =
      Node.elem sDocumentTag [] [Node.text y] := by
    show handleLinksN (removeTagsN imgTags (removeTagsN scriptStyleTags _)) = _
    rw [show removeTagsN scriptStyleTags (Node.elem sDocumentTag [] [Node.text y]) =
        Node.elem sDocumentTag [] [Node.text y] from by
      simp [removeTagsN, removeTagsL, removeTagsOne]]
    rw [show removeTagsN imgTags (Node.elem sDocumentTag [] [Node.text y]) =
        Node.elem sDocumentTag [] [Node.text y] from by
      simp [removeTagsN, removeTagsL, removeTagsOne]]
    exact e2
  show cleanWhitespace (extractStructuredText (cleanTree _)) = _
  rw [e1]
  rw [show extractStructuredText (Node.elem sDocumentTag [] [Node.text y]) = y from by
    simp [extractStructuredText, soupFindAll, findAllL, findAllOne, getTextN, getTextL]]

/-! ## The claims -/

/-- C1: every anchor element carrying an `href` whose stripped visible text
and href value are both non-empty is replaced by the single text node
`"{trimmed text} ({href})"`; an anchor whose text or href is empty, or with
no `href` attribute at all, is left as an element, so only its visible text
reaches the output (attributes are never read by text extraction, hence the
href is silently dropped), and an anchor with both empty contributes
nothing.  Checked end-to-end on the spec's example. -/
theorem claim1_anchor_rewrite :
    (∀ (a : List (String × List Char)) (cs : List Node) (u : List Char),
        lookupAttr sHref a = some u →
        pyStrip (getTextL cs) ≠ [] → u ≠ [] →
        handleLinksN (Node.elem sAnchor a cs) =
          Node.text (pyStrip (getTextL cs) ++ ' ' :: '(' :: (u ++ [')']))) ∧
    (∀ (a : List (String × List Char)) (cs : List Node) (u : List Char),
        lookupAttr sHref a = some u →
        ¬ (pyStrip (getTextL cs) ≠ [] ∧ u ≠ []) →
        handleLinksN (Node.elem sAnchor a cs) = Node.elem sAnchor a (handleLinksL cs)) ∧
    (∀ (a : List (String × List Char)) (cs : List Node),
        lookupAttr sHref a = none →
        handleLinksN (Node.elem sAnchor a cs) = Node.elem sAnchor a (handleLinksL cs)) ∧
    (∀ (t : String) (a1 a2 : List (String × List Char)) (cs : List Node),
        getTextN (Node.elem t a1 cs) = getTextN (Node.elem t a2 cs)) ∧
    normalizeStr exAnchor.data = outAnchor.data ∧
    normalizeStr exAnchorNoUrl.data = outClick.data ∧
    normalizeStr exAnchorNoText.data = [] ∧
    normalizeStr exAnchorBothEmpty.data = [] := by
  refine ⟨?_, ?_, ?_, ?_, by decide, by decide, by decide, by decide⟩
  · intro a cs u hlook h1 h2
    simp only [handleLinksN]
    rw [if_pos trivial, hlook]
    dsimp only
    rw [if_pos ⟨h1, h2⟩]
  · intro a cs u hlook hcond
    simp only [handleLinksN]
    rw [if_pos trivial, hlook]
    dsimp only
    rw [if_neg hcond]
  · intro a cs hlook
    simp only [handleLinksN]
    rw [if_pos trivial, hlook]
  · intro t a1 a2 cs
    rfl

/-- Witness for C1: the rewrite rule applied at a concrete anchor
`<a href='u'>T</a>`, hypotheses discharged by evaluation. -/
theorem claim1_anchor_rewrite_witness :
    handleLinksN (Node.elem sAnchor wAnchorAttrs wAnchorKids) = Node.text outTU.data := by
  have h := claim1_anchor_rewrite.1 wAnchorAttrs wAnchorKids sU.data
    (by decide) (by decide) (by decide)
  rw [h, show pyStrip (getTextL wAnchorKids) ++ ' ' :: '(' :: (sU.data ++ [')'])
      = outTU.data from by decide]

/-- C2: after the removal passes, no script, style or image element remains
anywhere below the document (hence none of their text content can reach the
extraction stage, which only reads the cleaned tree); images leave no
placeholder.  Checked end-to-end: `<img src='x.png'>Text` gives `"Text"`,
a style block and a script block disappear entirely. -/
theorem claim2_script_style_img_removed :
    (∀ root : Node,
        noTagBelow sScript (cleanTree root) = true ∧
        noTagBelow sStyle (cleanTree root) = true ∧
        noTagBelow sImg (cleanTree root) = true) ∧
    normalizeStr exImg.data = outText.data ∧
    normalizeStr exStyle.data = outVisible.data ∧
    normalizeStr exScript.data = outHi.data :=
  ⟨cleanTree_noTag, by decide, by decide, by decide⟩

/-- C3: the structured walk visits block-level elements in document order
(`soupFindAll` pre-order fold), each element contributes at most one
segment, and an element whose stripped text equals the stripped text of any
previously emitted segment is skipped, whatever the element kinds are — the
comparison is a pure string comparison against the stripped stored
segments.  On `<div>Same</div><p>Same</p>` exactly one segment `"Same"` is
emitted. -/
theorem claim3_block_walk_dedup :
    (∀ (acc : List (List Char)) (e : Node),
        pyStrip (getTextN e) ∈ acc.map pyStrip → extractStep acc e = acc) ∧
    (∀ (acc : List (List Char)) (e : Node),
        extractStep acc e = acc ∨ ∃ s, extractStep acc e = acc ++ [s]) ∧
    (soupFindAll blockTags (cleanTree (parseHtml exDedup.data))).foldl extractStep []
      = [sSame.data] ∧
    normalizeStr exDedup.data = sSame.data := by
  refine ⟨?_, ?_, by decide, by decide⟩
  · intro acc e hmem
    simp only [extractStep]
    rw [if_neg (fun hcond => hcond.2 hmem)]
  · intro acc e
    simp only [extractStep]
    by_cases hcond : pyStrip (getTextN e) ≠ [] ∧ pyStrip (getTextN e) ∉ acc.map pyStrip
    · rw [if_pos hcond]
      by_cases hli : nodeTag e = sLi
      · rw [if_pos hli]
        exact Or.inr ⟨_, rfl⟩
      · rw [if_neg hli]
        by_cases hh : startsWithH (nodeTag e) = true
        · rw [if_pos hh]
          exact Or.inr ⟨_, rfl⟩
        · rw [if_neg hh]
          exact Or.inr ⟨_, rfl⟩
    · rw [if_neg hcond]
      exact Or.inl rfl

/-- Witness for C3: the skip rule applied at a concrete accumulator holding
segment `"Same"` and a later `<p>Same</p>` element. -/
theorem claim3_block_walk_dedup_witness :
    pyStrip (getTextN wDedupElem) ∈ wDedupAcc.map pyStrip ∧
    extractStep wDedupAcc wDedupElem = wDedupAcc :=
  ⟨by decide, claim3_block_walk_dedup.1 wDedupAcc wDedupElem (by decide)⟩

/-- C4 counterexample: the claim says every run of two or more horizontal
whitespace characters, tabs included, collapses to one space.  The code's
regex `' +'` only matches ASCII spaces: `normalize("<p>a\t\tb</p>")`
returns `"a\t\tb"`, keeping the double tab, and differs from the
`"a b"` the claim would require. -/
theorem claim4_counterexample :
    normalizeStr exTabs.data = outTabs.data ∧
    hasTabTab (normalizeStr exTabs.data) = true ∧
    normalizeStr exTabs.data ≠ ['a', ' ', 'b'] := by decide

/-- C4 amended: every run of two or more ASCII space characters collapses
so that no two consecutive spaces survive in the output of `normalize`
(`noDS`), and `normalize("<p>Hello  world</p>") = "Hello world"`; runs of
tabs inside a line are not collapsed (they survive, as witnessed on
`<p>a\t\tb</p>`). -/
theorem claim4_amended_space_collapse :
    (∀ o : Option (List Char), noDS (clean_html_content o) = true) ∧
    normalizeStr exSpaces.data = outHello.data ∧
    hasTabTab (normalizeStr exTabs.data) = true :=
  ⟨fun o => (output_facts o).2.1, by decide, by decide⟩

/-- C5 counterexample: on `<h1>A</h1><h2>B</h2>` the intermediate joined
text contains a run of three newlines (two blank lines), yet the final
result is `"A\nB"`, which contains no two consecutive newlines at all — not
the "exactly one blank line" the claim states. -/
theorem claim5_counterexample :
    hasTripleNl (extractStructuredText (cleanTree (parseHtml exHeads.data))) = true ∧
    normalizeStr exHeads.data = outHeads.data ∧
    noNlNl outHeads.data = true := by decide

/-- C5 amended: wherever the intermediate joined text contains a run of two
or more blank lines, the final string contains no blank line at all: the
3+-newline collapse to one blank line is an intermediate step whose blank
line is then removed by the empty-line filter, so `normalize`'s result
never contains two consecutive newlines. -/
theorem claim5_amended_no_blank_lines :
    (∀ o : Option (List Char), noNlNl (clean_html_content o) = true) ∧
    normalizeStr exHeads.data = outHeads.data :=
  ⟨fun o => (output_facts o).1, by decide⟩

/-- C6: for a document containing no block-level element (no paragraph,
heading, list item, div or span anywhere), the structured walk emits zero
segments and `normalize` returns the whitespace-normalized flattened text
of the whole (cleaned) document — no bullet prefixes, no per-element
segmentation, no deduplication, just `cleanWhitespace ∘ getText`. -/
theorem claim6_fallback_flat_text (root : Node) (h : noTagsN blockTags root = true) :
    normalizeDoc root = cleanWhitespace (getTextN (cleanTree root)) :=
  noBlock_fallback root h

/-- Witness for C6: the fallback equality at a concrete block-free document
holding a single text node. -/
theorem claim6_fallback_flat_text_witness :
    noTagsN blockTags wFallbackDoc = true ∧
    normalizeDoc wFallbackDoc = cleanWhitespace (getTextN (cleanTree wFallbackDoc)) :=
  ⟨by decide, claim6_fallback_flat_text wFallbackDoc (by decide)⟩

/-- C7: absent input (`None`) and empty input (`""`) both give the empty
string, via the immediate `if not html_text: return ""` branch — no
parsing, not an error. -/
theorem claim7_empty_input :
    clean_html_content none = [] ∧ clean_html_content (some []) = [] :=
  ⟨rfl, rfl⟩

/-- C8 counterexample: idempotence fails on the code.  The permissive parse
decodes character references, so
`normalize("&lt;p&gt;hello&lt;/p&gt;") = "<p>hello</p>"`, and a second pass
re-parses that output as markup, returning `"hello"` — not the same
string. -/
theorem claim8_counterexample :
    normalizeStr exEntity.data = outEntity.data ∧
    normalizeStr (normalizeStr exEntity.data) = outHello2.data ∧
    normalizeStr (normalizeStr exEntity.data) ≠ normalizeStr exEntity.data := by decide

/-- C8 amended: `normalize` is idempotent on every input whose first-pass
output contains no `'<'` and no `'&'` (i.e. whose output is free of
markup-significant characters): such an output re-parses as a single text
node, falls through to the flat-text path, and whitespace normalization is
a fixpoint on its own output. -/
theorem claim8_amended_idem (s : List Char)
    (h1 : '<' ∉ normalizeStr s) (h2 : '&' ∉ normalizeStr s) :
    normalizeStr (normalizeStr s) = normalizeStr s := by
  by_cases hy : normalizeStr s = []
  · rw [hy]
    rfl
  · have hnotspec : ∀ c ∈ normalizeStr s, notSpecial c = true := by
      intro c hc
      have hc1 : ¬ c = '<' := fun e => h1 (e ▸ hc)
      have hc2 : ¬ c = '&' := fun e => h2 (e ▸ hc)
      simp [notSpecial, hc1, hc2]
    have hp := parse_plain_text _ hy hnotspec
    have hne : (normalizeStr s).isEmpty = false := by
      cases hys : normalizeStr s with
      | nil => exact absurd hys hy
      | cons a b => rfl
    show clean_html_content (some (normalizeStr s)) = normalizeStr s
    rw [show clean_html_content (some (normalizeStr s)) =
        (if (normalizeStr s).isEmpty then []
         else normalizeDoc (parseHtml (normalizeStr s))) from rfl]
    simp only [hne, Bool.false_eq_true, if_false]
    rw [hp, normalizeDoc_plain]
    rcases clean_html_shape (some s) with hsh | ⟨u, hsh⟩
    · exact absurd hsh hy
    · calc cleanWhitespace (normalizeStr s)
          = cleanWhitespace (cleanWhitespace u) := by
            rw [show normalizeStr s = cleanWhitespace u from hsh]
      _ = cleanWhitespace u := cleanWS_idem u
      _ = normalizeStr s := hsh.symm

/-- Witness for C8 amended: a concrete input whose first pass gives
`"Hi there"`, free of markup characters; the second pass returns it
unchanged. -/
theorem claim8_amended_idem_witness :
    ('<' ∉ normalizeStr exIdem.data) ∧ ('&' ∉ normalizeStr exIdem.data) ∧
    normalizeStr (normalizeStr exIdem.data) = normalizeStr exIdem.data :=
  ⟨by decide, by decide, claim8_amended_idem exIdem.data (by decide) (by decide)⟩

/-- C9: the parse step is total and permissive (spec-modelled: BeautifulSoup's
`html.parser` backend is library code outside this repository, modelled from
the spec).  Any non-empty input without markup-significant characters parses
to a single text node under the document root — unmatched content degrades
to plain text — and malformed fragments (`<p>unclosed`, a stray close tag)
come back as text, never as an error; the model is a total function. -/
theorem claim9_total_permissive_parse :
    (∀ s : List Char, s ≠ [] → (∀ c ∈ s, notSpecial c = true) →
        parseHtml s = Node.elem sDocumentTag [] [Node.text s]) ∧
    normalizeStr exUnclosed.data = outUnclosed.data ∧
    normalizeStr exStray.data = outStray.data :=
  ⟨parse_plain_text, by decide, by decide⟩

/-- Witness for C9: the degrade-to-text rule at the concrete input
`"xyz"`. -/
theorem claim9_total_permissive_parse_witness :
    exParse9.data ≠ [] ∧ (∀ c ∈ exParse9.data, notSpecial c = true) ∧
    parseHtml exParse9.data = Node.elem sDocumentTag [] [Node.text exParse9.data] :=
  ⟨by decide, by decide,
   claim9_total_permissive_parse.1 exParse9.data (by decide) (by decide)⟩

/-- C10: for every input (absent, empty or any string), `normalize`'s
result has no whitespace-only line (every line is non-empty, unless the
whole result is empty), no line with leading or trailing whitespace
(stripping any line is the identity), never two consecutive newlines, and
stripping the whole result is the identity. -/
theorem claim10_output_invariants (o : Option (List Char)) :
    noNlNl (clean_html_content o) = true ∧
    (∀ l ∈ splitNl (clean_html_content o), pyStrip l = l) ∧
    (clean_html_content o = [] ∨ ∀ l ∈ splitNl (clean_html_content o), l ≠ []) ∧
    pyStrip (clean_html_content o) = clean_html_content o := by
  have h := output_facts o
  exact ⟨h.1, h.2.2.1, h.2.2.2.1, h.2.2.2.2⟩

/-- Witness for C10: the line invariants at the concrete output
`"Hello world"` of `<p>Hello  world</p>`. -/
theorem claim10_output_invariants_witness :
    outHello.data ∈ splitNl (clean_html_content (some exSpaces.data)) ∧
    pyStrip outHello.data = outHello.data :=
  ⟨by decide,
   (claim10_output_invariants (some exSpaces.data)).2.1 outHello.data (by decide)⟩
